import Mathlib

/-!
Verification of the Transformation, Attribution & Optimization Engine
(`dashboard/core/transformations.py`, `dashboard/core/attribution.py`,
`dashboard/core/optimization.py`) against its natural-language
specification.  Machine reals are modelled by `ℚ` where the code is exact
rational arithmetic on the inputs we reason about, and by `ℝ` where the
code uses transcendental functions (`x ** S`, `np.log`, `np.sqrt`).
External collaborators (the scipy SLSQP solver, numpy's seeded random
permutation generator) are abstracted as explicit function parameters.
-/

namespace MMM

/-! ## Transformation engine: `geometric_adstock`
    (`dashboard/core/transformations.py`, lines 8-38)

    The Python loop `for t in range(1, n): adstocked[t] = x[t] + decay_rate *
    adstocked[t-1]` is embedded as a structural recursion carrying the
    previous adstocked value. -/

/-- The loop body of `geometric_adstock`: given the previous adstocked value
`prev`, produce the adstocked values of the remaining periods. -/
def adstockAux (d : ℚ) (prev : ℚ) : List ℚ → List ℚ
  | [] => []
  | x :: xs => (x + d * prev) :: adstockAux d (x + d * prev) xs

/-- `adstocked` before the optional normalization: `adstocked[0] = x[0]`,
then the recursive loop from `t = 1`. -/
def adstockRaw (x : List ℚ) (d : ℚ) : List ℚ :=
  match x with
  | [] => []
  | x0 :: rest => x0 :: adstockAux d x0 rest

/-- `geometric_adstock(x, decay_rate, normalize)`: the recursion above,
then `adstocked * (1 - decay_rate)` when `normalize` is true.  No
validation of `decay_rate` is performed anywhere in the source. -/
def geometric_adstock (x : List ℚ) (decay_rate : ℚ) (normalize : Bool) : List ℚ :=
  let adstocked := adstockRaw x decay_rate
  if normalize then adstocked.map (fun a => a * (1 - decay_rate)) else adstocked

lemma adstockAux_length (d p : ℚ) (xs : List ℚ) :
    (adstockAux d p xs).length = xs.length := by
  induction xs generalizing p with
  | nil => rfl
  | cons a rs ih => simp [adstockAux, ih]

lemma adstockRaw_length (x : List ℚ) (d : ℚ) :
    (adstockRaw x d).length = x.length := by
  cases x with
  | nil => rfl
  | cons x0 rest => simp [adstockRaw, adstockAux_length]

/-- The inner recurrence of the loop, stated over `adstockAux`. -/
lemma adstockAux_getD_succ (d : ℚ) (rest : List ℚ) :
    ∀ (t : ℕ) (p : ℚ), t + 1 < rest.length →
      (adstockAux d p rest).getD (t + 1) 0 =
        rest.getD (t + 1) 0 + d * (adstockAux d p rest).getD t 0 := by
  induction rest with
  | nil => intro t p h; simp at h
  | cons a rs ih =>
    intro t p h
    cases t with
    | zero =>
      cases rs with
      | nil => simp at h
      | cons b rs' => simp [adstockAux]
    | succ t' =>
      have h' : t' + 1 < rs.length := by
        simpa [Nat.succ_lt_succ_iff] using h
      simpa [adstockAux] using ih t' (a + d * p) h'

/-- Causality of the loop: the value at index `t` only depends on the first
`t + 1` inputs (given equal previous accumulator and equal lengths). -/
lemma adstockAux_causal (d : ℚ) :
    ∀ (xs ys : List ℚ) (p : ℚ) (t : ℕ), ys.length = xs.length →
      (∀ i, i ≤ t → ys.getD i 0 = xs.getD i 0) →
      (adstockAux d p ys).getD t 0 = (adstockAux d p xs).getD t 0 := by
  intro xs
  induction xs with
  | nil =>
    intro ys p t hlen _
    have : ys = [] := List.length_eq_zero.mp hlen
    simp [this]
  | cons a rs ih =>
    intro ys p t hlen hagree
    cases ys with
    | nil => simp at hlen
    | cons b ss =>
      have hb : b = a := by simpa using hagree 0 (Nat.zero_le t)
      cases t with
      | zero => simp [adstockAux, hb]
      | succ t' =>
        have hlen' : ss.length = rs.length := by simpa using hlen
        have hagree' : ∀ i, i ≤ t' → ss.getD i 0 = rs.getD i 0 := by
          intro i hi
          simpa using hagree (i + 1) (Nat.succ_le_succ hi)
        simpa [adstockAux, hb] using ih ss (a + d * p) t' hlen' hagree'

/-- Recurrence at the `adstockRaw` level. -/
lemma adstockRaw_getD_succ (x : List ℚ) (d : ℚ) (t : ℕ) (h : t + 1 < x.length) :
    (adstockRaw x d).getD (t + 1) 0 =
      x.getD (t + 1) 0 + d * (adstockRaw x d).getD t 0 := by
  cases x with
  | nil => simp at h
  | cons x0 rest =>
    cases t with
    | zero =>
      cases rest with
      | nil => simp at h
      | cons b rs => simp [adstockRaw, adstockAux]
    | succ t' =>
      have h' : t' + 1 < rest.length := by
        simpa [Nat.succ_lt_succ_iff] using h
      simpa [adstockRaw] using adstockAux_getD_succ d rest t' x0 h'

lemma adstockRaw_getD_zero (x0 : ℚ) (rest : List ℚ) (d : ℚ) :
    (adstockRaw (x0 :: rest) d).getD 0 0 = x0 := by
  simp [adstockRaw]

/-- Causality at the `adstockRaw` level. -/
lemma adstockRaw_causal (x y : List ℚ) (d : ℚ) (t : ℕ)
    (hlen : y.length = x.length)
    (hagree : ∀ i, i ≤ t → y.getD i 0 = x.getD i 0) :
    (adstockRaw y d).getD t 0 = (adstockRaw x d).getD t 0 := by
  cases x with
  | nil =>
    have : y = [] := List.length_eq_zero.mp (by simpa using hlen)
    simp [this]
  | cons x0 rest =>
    cases y with
    | nil => simp at hlen
    | cons y0 ss =>
      have h0 : y0 = x0 := by simpa using hagree 0 (Nat.zero_le t)
      cases t with
      | zero => simp [adstockRaw, h0]
      | succ t' =>
        have hlen' : ss.length = rest.length := by simpa using hlen
        have hagree' : ∀ i, i ≤ t' → ss.getD i 0 = rest.getD i 0 := by
          intro i hi
          simpa using hagree (i + 1) (Nat.succ_le_succ hi)
        simpa [adstockRaw, h0] using
          adstockAux_causal d rest ss x0 t' hlen' hagree'

/-- C4: for every non-empty non-negative spend list and decay rate in
[0,1), `geometric_adstock` with `normalize = false` satisfies
`adstocked[0] = x[0]` and `adstocked[t] = x[t] + decay_rate * adstocked[t-1]`,
and each `adstocked[t]` is invariant to perturbing the inputs after index
`t` (causality). -/
theorem geometric_adstock_recurrence_and_causality
    (x : List ℚ) (d : ℚ) (hx : x ≠ []) (hnn : ∀ v ∈ x, 0 ≤ v)
    (hd0 : 0 ≤ d) (hd1 : d < 1) :
    (geometric_adstock x d false).getD 0 0 = x.getD 0 0 ∧
    (∀ t, t + 1 < x.length →
      (geometric_adstock x d false).getD (t + 1) 0 =
        x.getD (t + 1) 0 + d * (geometric_adstock x d false).getD t 0) ∧
    (∀ t (y : List ℚ), y.length = x.length →
      (∀ i, i ≤ t → y.getD i 0 = x.getD i 0) →
      (geometric_adstock y d false).getD t 0 =
        (geometric_adstock x d false).getD t 0) := by
  refine ⟨?_, ?_, ?_⟩
  · cases x with
    | nil => exact absurd rfl hx
    | cons x0 rest => simp [geometric_adstock, adstockRaw]
  · intro t ht
    simpa [geometric_adstock] using adstockRaw_getD_succ x d t ht
  · intro t y hlen hagree
    simpa [geometric_adstock] using adstockRaw_causal x y d t hlen hagree

theorem geometric_adstock_recurrence_and_causality_witness :
    ([(1 : ℚ), 2, 3] ≠ [] ∧ (∀ v ∈ [(1 : ℚ), 2, 3], 0 ≤ v) ∧
      (0 : ℚ) ≤ 1/2 ∧ (1/2 : ℚ) < 1) ∧
    ((geometric_adstock [1, 2, 3] (1/2) false).getD 0 0 =
        ([(1 : ℚ), 2, 3]).getD 0 0 ∧
      (∀ t, t + 1 < ([(1 : ℚ), 2, 3]).length →
        (geometric_adstock [1, 2, 3] (1/2) false).getD (t + 1) 0 =
          ([(1 : ℚ), 2, 3]).getD (t + 1) 0 +
            (1/2) * (geometric_adstock [1, 2, 3] (1/2) false).getD t 0) ∧
      (∀ t (y : List ℚ), y.length = ([(1 : ℚ), 2, 3]).length →
        (∀ i, i ≤ t → y.getD i 0 = ([(1 : ℚ), 2, 3]).getD i 0) →
        (geometric_adstock y (1/2) false).getD t 0 =
          (geometric_adstock [1, 2, 3] (1/2) false).getD t 0)) :=
  ⟨⟨by decide, by decide, by norm_num, by norm_num⟩,
    geometric_adstock_recurrence_and_causality [1, 2, 3] (1/2)
      (by decide) (by decide) (by norm_num) (by norm_num)⟩

/-- C5 counterexample: `geometric_adstock` neither raises nor clamps an
invalid decay rate.  At `x = [1,1,1]`, `decay_rate = 2`, `normalize = false`
it returns `[1, 3, 7]` — the plain recursion run with the invalid rate —
whereas for every clamped rate `d ∈ [0,1)` the value at index 2 stays
below 3. -/
theorem geometric_adstock_no_decay_validation :
    geometric_adstock [1, 1, 1] 2 false = [1, 3, 7] ∧
    ∀ d : ℚ, 0 ≤ d → d < 1 →
      (geometric_adstock [1, 1, 1] d false).getD 2 0 < 3 := by
  constructor
  · simp [geometric_adstock, adstockRaw, adstockAux]
    norm_num
  · intro d h0 h1
    have : (geometric_adstock [1, 1, 1] d false).getD 2 0 = 1 + d * (1 + d) := by
      simp [geometric_adstock, adstockRaw, adstockAux]
    rw [this]
    nlinarith

/-- C5 (amended): `geometric_adstock` performs no validation of
`decay_rate`; for `decay_rate ≥ 1` it runs the same recursion unchanged and
returns the accumulating sequence (`adstocked[0] = x[0]`,
`adstocked[t] = x[t] + decay_rate * adstocked[t-1]`), so with an
all-positive input each value dominates the running total of the inputs so
far instead of being bounded. -/
theorem geometric_adstock_invalid_rate_runs_recursion
    (x : List ℚ) (d : ℚ) (hx : x ≠ []) (hd : 1 ≤ d) :
    (geometric_adstock x d false).getD 0 0 = x.getD 0 0 ∧
    (∀ t, t + 1 < x.length →
      (geometric_adstock x d false).getD (t + 1) 0 =
        x.getD (t + 1) 0 + d * (geometric_adstock x d false).getD t 0) ∧
    (∀ t, t < x.length → (∀ v ∈ x, 0 < v) →
      ((List.range (t + 1)).map (fun i => x.getD i 0)).sum ≤
        (geometric_adstock x d false).getD t 0) := by
  refine ⟨?_, ?_, ?_⟩
  · cases x with
    | nil => exact absurd rfl hx
    | cons x0 rest => simp [geometric_adstock, adstockRaw]
  · intro t ht
    simpa [geometric_adstock] using adstockRaw_getD_succ x d t ht
  · intro t
    induction t with
    | zero =>
      intro ht _
      cases x with
      | nil => simp at ht
      | cons x0 rest => simp [geometric_adstock, adstockRaw, List.range_succ]
    | succ t' ih =>
      intro ht hpos
      have ht' : t' < x.length := Nat.lt_of_succ_lt ht
      have hrec := adstockRaw_getD_succ x d t' ht
      have hprev := ih ht' hpos
      have hsum_nonneg :
          0 ≤ ((List.range (t' + 1)).map (fun i => x.getD i 0)).sum := by
        apply List.sum_nonneg
        intro v hv
        obtain ⟨i, hi, rfl⟩ := List.mem_map.mp hv
        have hi' : i < x.length :=
          lt_of_le_of_lt (Nat.lt_succ_iff.mp (List.mem_range.mp hi)) ht'
        have hmem : x.getD i 0 ∈ x := by
          rw [List.getD_eq_getElem x 0 hi']
          exact List.getElem_mem hi'
        exact le_of_lt (hpos _ hmem)
      have hstep : ((List.range (t' + 2)).map (fun i => x.getD i 0)).sum =
          ((List.range (t' + 1)).map (fun i => x.getD i 0)).sum +
            x.getD (t' + 1) 0 := by
        rw [List.range_succ]
        simp
      have hA : (geometric_adstock x d false).getD t' 0 =
          (adstockRaw x d).getD t' 0 := by simp [geometric_adstock]
      have hA' : (geometric_adstock x d false).getD (t' + 1) 0 =
          (adstockRaw x d).getD (t' + 1) 0 := by simp [geometric_adstock]
      rw [hA'] at *
      rw [hA] at hprev
      rw [hrec, hstep]
      nlinarith

theorem geometric_adstock_invalid_rate_runs_recursion_witness :
    (([(1 : ℚ), 1, 1] : List ℚ) ≠ [] ∧ (1 : ℚ) ≤ 2) ∧
    ((geometric_adstock [1, 1, 1] 2 false).getD 0 0 =
        ([(1 : ℚ), 1, 1]).getD 0 0 ∧
      (∀ t, t + 1 < ([(1 : ℚ), 1, 1]).length →
        (geometric_adstock [1, 1, 1] 2 false).getD (t + 1) 0 =
          ([(1 : ℚ), 1, 1]).getD (t + 1) 0 +
            2 * (geometric_adstock [1, 1, 1] 2 false).getD t 0) ∧
      (∀ t, t < ([(1 : ℚ), 1, 1]).length → (∀ v ∈ [(1 : ℚ), 1, 1], 0 < v) →
        ((List.range (t + 1)).map (fun i => ([(1 : ℚ), 1, 1]).getD i 0)).sum ≤
          (geometric_adstock [1, 1, 1] 2 false).getD t 0)) :=
  ⟨⟨by decide, by norm_num⟩,
    geometric_adstock_invalid_rate_runs_recursion [1, 1, 1] 2
      (by decide) (by norm_num)⟩

/-! ## Transformation engine: `hill_function` and `log_transform`
    (`dashboard/core/transformations.py`, lines 69-88 and 112-129)

    Real powers (`x ** S` with float `S`) and `np.log` are modelled over
    `ℝ`.  `np.log` returns NaN on negative arguments and `-inf` at zero;
    these non-finite float outcomes are modelled by an explicit sum type. -/

/-- `hill_function(x, K, S) = x ** S / (K ** S + x ** S)`. -/
noncomputable def hill_function (x K S : ℝ) : ℝ :=
  x ^ S / (K ^ S + x ^ S)

/-- Possible results of numpy's `log` on a real argument: NaN for negative
input, `-inf` at zero, and a finite real value for positive input. -/
inductive NpFloat where
  | nan : NpFloat
  | neginf : NpFloat
  | finite : ℝ → NpFloat

/-- numpy's `log`: NaN on negatives, `-inf` at zero, `log x` otherwise. -/
noncomputable def npLog (x : ℝ) : NpFloat :=
  if x < 0 then NpFloat.nan
  else if x = 0 then NpFloat.neginf
  else NpFloat.finite (Real.log x)

/-- `log_transform(x, offset) = np.log(x + offset)`.  The source applies the
logarithm unconditionally: no check on `x + offset` is performed. -/
noncomputable def log_transform (x : ℝ) (offset : ℝ) : NpFloat :=
  npLog (x + offset)

/-- C6: for fixed `K > 0` and `S > 0`, `hill_function` is non-decreasing on
`x ≥ 0`, stays in `[0, 1)`, and equals exactly `1/2` at `x = K`. -/
theorem hill_function_monotone_bounded_half
    (K S x y : ℝ) (hK : 0 < K) (hS : 0 < S) (hx : 0 ≤ x) (hxy : x ≤ y) :
    hill_function x K S ≤ hill_function y K S ∧
    0 ≤ hill_function x K S ∧ hill_function x K S < 1 ∧
    hill_function K K S = 1 / 2 := by
  have hKS : 0 < K ^ S := Real.rpow_pos_of_pos hK S
  have hxS : 0 ≤ x ^ S := Real.rpow_nonneg hx S
  have hy : 0 ≤ y := le_trans hx hxy
  have hyS : 0 ≤ y ^ S := Real.rpow_nonneg hy S
  have hxyS : x ^ S ≤ y ^ S := Real.rpow_le_rpow hx hxy hS.le
  have hdenx : 0 < K ^ S + x ^ S := by linarith
  have hdeny : 0 < K ^ S + y ^ S := by linarith
  refine ⟨?_, ?_, ?_, ?_⟩
  · rw [hill_function, hill_function, div_le_div_iff hdenx hdeny]
    nlinarith
  · exact div_nonneg hxS hdenx.le
  · rw [hill_function, div_lt_one hdenx]
    linarith
  · rw [hill_function, div_eq_iff (by linarith : K ^ S + K ^ S ≠ 0)]
    ring

theorem hill_function_monotone_bounded_half_witness :
    ((0 : ℝ) < 2 ∧ (0 : ℝ) < 1 ∧ (0 : ℝ) ≤ 0 ∧ (0 : ℝ) ≤ 3) ∧
    (hill_function 0 2 1 ≤ hill_function 3 2 1 ∧
      0 ≤ hill_function 0 2 1 ∧ hill_function 0 2 1 < 1 ∧
      hill_function 2 2 1 = 1 / 2) :=
  ⟨⟨by norm_num, by norm_num, le_refl 0, by norm_num⟩,
    hill_function_monotone_bounded_half 2 1 0 3
      (by norm_num) (by norm_num) (le_refl 0) (by norm_num)⟩

/-- C8 counterexample: `log_transform` applies the logarithm with no guard.
At `x = -2`, `offset = 1` (so `x + offset = -1 ≤ 0`) it evaluates
`np.log(-1)` and propagates the NaN result instead of failing or guarding. -/
theorem log_transform_no_guard :
    log_transform (-2) 1 = NpFloat.nan := by
  rw [log_transform, npLog]
  norm_num

/-- C8 (amended): `log_transform` performs no input validation: it returns
`np.log(x + offset)` unconditionally, propagating NaN whenever
`x + offset < 0` and `-inf` whenever `x + offset = 0`; a finite logarithm is
produced only for `x + offset > 0`. -/
theorem log_transform_propagates_nonfinite (x offset : ℝ) (h : x + offset ≤ 0) :
    log_transform x offset =
      (if x + offset < 0 then NpFloat.nan else NpFloat.neginf) := by
  rw [log_transform, npLog]
  rcases lt_or_eq_of_le h with hlt | heq
  · simp [hlt]
  · simp [heq]

theorem log_transform_propagates_nonfinite_witness :
    ((-3 : ℝ) + 1 ≤ 0) ∧
    log_transform (-3) 1 =
      (if (-3 : ℝ) + 1 < 0 then NpFloat.nan else NpFloat.neginf) :=
  ⟨by norm_num, log_transform_propagates_nonfinite (-3) 1 (by norm_num)⟩

/-! ## Attribution engine: `compute_shapley_values`
    (`dashboard/core/attribution.py`, lines 59-157)

    The `channel_effects` dict is modelled as an ordered association list
    `List (String × ℚ)`; channels are addressed by their position in the
    list (a Python dict has distinct keys and a fixed iteration order, so
    positional indexing is equivalent to keyed lookup).  The seeded numpy
    permutation generator used by `_shapley_sampling` is abstracted as an
    explicit list of drawn permutations, one per Monte Carlo sample. -/

/-- The subset weight `|S|! * (n - |S| - 1)! / n!` of the exact method. -/
def subsetWeight (n k : ℕ) : ℚ :=
  (Nat.factorial k * Nat.factorial (n - k - 1) : ℚ) / (Nat.factorial n : ℚ)

/-- `value_function(coalition)`: `baseline` for the empty coalition,
otherwise `baseline` plus the effects of the members. -/
def value_function (baseline : ℚ) (effects : List ℚ) (S : Finset ℕ) : ℚ :=
  if S = ∅ then baseline else baseline + ∑ j ∈ S, effects.getD j 0

/-- Exact Shapley values (`n ≤ 10` branch): for each channel the weighted
sum of its marginal contributions over all subsets of the other channels. -/
def shapleyExact (baseline : ℚ) (effects : List ℚ) : List ℚ :=
  (List.range effects.length).map fun i =>
    ∑ S ∈ ((Finset.range effects.length).erase i).powerset,
      subsetWeight effects.length S.card *
        (value_function baseline effects (insert i S) -
          value_function baseline effects S)

/-- One pass of the sampling loop: walk a permutation keeping the running
coalition value, returning the total amount credited to channel `i`. -/
def walkGains (effects : List ℚ) : ℚ → List ℕ → ℕ → ℚ
  | _, [], _ => 0
  | cur, ch :: rest, i =>
    (if i = ch then (cur + effects.getD ch 0) - cur else 0) +
      walkGains effects (cur + effects.getD ch 0) rest i

/-- `_shapley_sampling`: average the per-permutation credits over the drawn
permutations (`perms` stands for the output of the seeded generator; its
length is the `n_samples` of the source). -/
def shapleySampling (baseline : ℚ) (effects : List ℚ)
    (perms : List (List ℕ)) : List ℚ :=
  (List.range effects.length).map fun i =>
    (perms.map fun p => walkGains effects baseline p i).sum / (perms.length : ℚ)

/-- `compute_shapley_values(baseline, channel_effects)`: empty input yields
the empty dict; more than 10 channels dispatches to sampling; otherwise the
exact subset enumeration is used. -/
def compute_shapley_values (baseline : ℚ) (channel_effects : List (String × ℚ))
    (perms : List (List ℕ)) : List (String × ℚ) :=
  let n := channel_effects.length
  if n = 0 then []
  else if n > 10 then
    (channel_effects.map Prod.fst).zip
      (shapleySampling baseline (channel_effects.map Prod.snd) perms)
  else
    (channel_effects.map Prod.fst).zip
      (shapleyExact baseline (channel_effects.map Prod.snd))

lemma value_function_eq (baseline : ℚ) (effects : List ℚ) (S : Finset ℕ) :
    value_function baseline effects S = baseline + ∑ j ∈ S, effects.getD j 0 := by
  rw [value_function]
  split
  · next h => simp [h]
  · rfl

/-- For `i ∉ S` the marginal contribution of channel `i` is exactly its own
effect (the value function is additive). -/
lemma marginal_eq_effect (baseline : ℚ) (effects : List ℚ) (i : ℕ)
    (S : Finset ℕ) (hiS : i ∉ S) :
    value_function baseline effects (insert i S) -
      value_function baseline effects S = effects.getD i 0 := by
  rw [value_function_eq, value_function_eq, Finset.sum_insert hiS]
  ring

/-- The subset weights over all subsets of an `(n-1)`-element set sum to 1. -/
lemma sum_subsetWeight (T : Finset ℕ) (n : ℕ) (hT : T.card = n - 1) (hn : 1 ≤ n) :
    ∑ S ∈ T.powerset, subsetWeight n S.card = 1 := by
  rw [Finset.powerset_card_disjiUnion, Finset.sum_disjiUnion]
  have hstep : ∀ k ∈ Finset.range (T.card + 1),
      ∑ S ∈ Finset.powersetCard k T, subsetWeight n S.card =
        (Nat.factorial (n - 1) : ℚ) / (Nat.factorial n : ℚ) := by
    intro k hk
    have hk' : k ≤ n - 1 := by
      have := Finset.mem_range.mp hk
      omega
    have hcard : ∀ S ∈ Finset.powersetCard k T, subsetWeight n S.card =
        subsetWeight n k := by
      intro S hS
      rw [(Finset.mem_powersetCard.mp hS).2]
    rw [Finset.sum_congr rfl hcard, Finset.sum_const, Finset.card_powersetCard,
      hT, nsmul_eq_mul, subsetWeight]
    have hchoose : ((n - 1).choose k * Nat.factorial k *
        Nat.factorial (n - 1 - k) : ℕ) = Nat.factorial (n - 1) :=
      Nat.choose_mul_factorial_mul_factorial hk'
    have hsub : n - k - 1 = n - 1 - k := by omega
    rw [hsub, mul_div_assoc']
    congr 1
    have hnat : (n - 1).choose k * (Nat.factorial k * Nat.factorial (n - 1 - k)) =
        Nat.factorial (n - 1) := by
      rw [← hchoose]
      ring
    exact_mod_cast hnat
  rw [Finset.sum_congr rfl hstep, Finset.sum_const, nsmul_eq_mul, hT,
    Finset.card_range]
  have hfact : (n : ℚ) * (Nat.factorial (n - 1) : ℚ) = (Nat.factorial n : ℚ) := by
    have hnat : n * Nat.factorial (n - 1) = Nat.factorial n := by
      cases n with
      | zero => omega
      | succ m => simp [Nat.factorial_succ]
    exact_mod_cast hnat
  have hcast : ((n - 1 + 1 : ℕ) : ℚ) = (n : ℚ) := by
    have hnat : n - 1 + 1 = n := by omega
    exact_mod_cast hnat
  rw [hcast, ← mul_div_assoc, hfact]
  exact div_self (by positivity)

/-- Each exact Shapley value collapses to the channel's own effect. -/
lemma shapleyExact_entry (baseline : ℚ) (effects : List ℚ) (i : ℕ)
    (hi : i < effects.length) :
    ∑ S ∈ ((Finset.range effects.length).erase i).powerset,
      subsetWeight effects.length S.card *
        (value_function baseline effects (insert i S) -
          value_function baseline effects S) = effects.getD i 0 := by
  have hmarg : ∀ S ∈ ((Finset.range effects.length).erase i).powerset,
      subsetWeight effects.length S.card *
        (value_function baseline effects (insert i S) -
          value_function baseline effects S) =
        subsetWeight effects.length S.card * effects.getD i 0 := by
    intro S hS
    have hsub := Finset.mem_powerset.mp hS
    have hiS : i ∉ S := fun hmem =>
      (Finset.not_mem_erase i _) (hsub hmem)
    rw [marginal_eq_effect baseline effects i S hiS]
  rw [Finset.sum_congr rfl hmarg, ← Finset.sum_mul]
  have hcard : ((Finset.range effects.length).erase i).card =
      effects.length - 1 := by
    rw [Finset.card_erase_of_mem (Finset.mem_range.mpr hi), Finset.card_range]
  rw [sum_subsetWeight _ _ hcard (by omega), one_mul]

/-- `shapleyExact` returns, per channel, exactly the channel's effect. -/
lemma shapleyExact_eq (baseline : ℚ) (effects : List ℚ) :
    shapleyExact baseline effects = effects := by
  apply List.ext_getElem
  · simp [shapleyExact]
  · intro i h1 h2
    have hi : i < effects.length := h2
    simp only [shapleyExact, List.getElem_map, List.getElem_range]
    have h := shapleyExact_entry baseline effects i hi
    rwa [List.getD_eq_getElem effects 0 hi] at h

/-- Walking a permutation credits channel `i` with its own effect once per
occurrence of `i`, independently of the running coalition value. -/
lemma walkGains_eq_count (effects : List ℚ) (p : List ℕ) :
    ∀ (cur : ℚ) (i : ℕ),
      walkGains effects cur p i = (p.count i : ℚ) * effects.getD i 0 := by
  induction p with
  | nil => intro cur i; simp [walkGains]
  | cons ch rest ih =>
    intro cur i
    rw [walkGains, ih, List.count_cons]
    by_cases h : i = ch
    · subst h
      simp only [beq_self_eq_true, if_true, if_pos rfl]
      push_cast
      ring
    · have h' : (ch == i) = false := beq_false_of_ne fun hc => h hc.symm
      simp only [h', if_false, if_neg h]
      push_cast
      ring

lemma sum_map_range (f : ℕ → ℚ) (n : ℕ) :
    ((List.range n).map f).sum = ∑ i ∈ Finset.range n, f i := by
  induction n with
  | zero => simp
  | succ m ih => rw [List.range_succ, Finset.sum_range_succ]; simp [ih]

lemma sum_getD_range (xs : List ℚ) :
    ∑ i ∈ Finset.range xs.length, xs.getD i 0 = xs.sum := by
  induction xs with
  | nil => simp
  | cons a l ih =>
    rw [List.length_cons, Finset.sum_range_succ']
    simp only [List.getD_cons_succ, List.getD_cons_zero, ih]
    rw [List.sum_cons]
    ring

lemma sum_exchange (n : ℕ) (g : List ℕ → ℕ → ℚ) (perms : List (List ℕ)) :
    ∑ i ∈ Finset.range n, (perms.map (fun p => g p i)).sum =
      (perms.map (fun p => ∑ i ∈ Finset.range n, g p i)).sum := by
  induction perms with
  | nil => simp
  | cons q qs ih => simp [Finset.sum_add_distrib, ih]

/-- For a permutation of the full channel index range, one walk distributes
exactly the sum of all effects. -/
lemma walk_total (baseline : ℚ) (effects : List ℚ) (p : List ℕ)
    (hp : p.Perm (List.range effects.length)) :
    ∑ i ∈ Finset.range effects.length, walkGains effects baseline p i =
      effects.sum := by
  have hcount : ∀ i ∈ Finset.range effects.length, (p.count i : ℚ) = 1 := by
    intro i hi
    have hi' : i ∈ List.range effects.length :=
      List.mem_range.mpr (Finset.mem_range.mp hi)
    have h1 : p.count i = (List.range effects.length).count i := hp.count_eq i
    have h2 : (List.range effects.length).count i = 1 :=
      List.count_eq_one_of_mem (List.nodup_range _) hi'
    rw [h1, h2, Nat.cast_one]
  calc ∑ i ∈ Finset.range effects.length, walkGains effects baseline p i
      = ∑ i ∈ Finset.range effects.length, (p.count i : ℚ) * effects.getD i 0 := by
        exact Finset.sum_congr rfl fun i _ => walkGains_eq_count effects p baseline i
    _ = ∑ i ∈ Finset.range effects.length, effects.getD i 0 := by
        refine Finset.sum_congr rfl fun i hi => ?_
        rw [hcount i hi, one_mul]
    _ = effects.sum := sum_getD_range effects

/-- The Monte Carlo estimates sum exactly to the sum of effects whenever at
least one permutation is drawn and every draw permutes the channel list. -/
lemma shapleySampling_sum (baseline : ℚ) (effects : List ℚ)
    (perms : List (List ℕ)) (hne : perms ≠ [])
    (hp : ∀ p ∈ perms, p.Perm (List.range effects.length)) :
    (shapleySampling baseline effects perms).sum = effects.sum := by
  rw [shapleySampling, sum_map_range]
  rw [← Finset.sum_div, sum_exchange]
  have hmap : perms.map
      (fun p => ∑ i ∈ Finset.range effects.length,
        walkGains effects baseline p i) =
      perms.map (fun _ => effects.sum) := by
    apply List.map_congr_left
    intro p hpmem
    exact walk_total baseline effects p (hp p hpmem)
  rw [hmap, List.map_const', List.sum_replicate, nsmul_eq_mul]
  have hlen0 : perms.length ≠ 0 := fun hl => hne (List.length_eq_zero.mp hl)
  have hlen : (perms.length : ℚ) ≠ 0 := Nat.cast_ne_zero.mpr hlen0
  field_simp

/-- C2: for every baseline and channel-effects map, the Shapley values
returned by `compute_shapley_values` sum to `value(all channels) −
value(∅) = sum(channel_effects.values())` — exactly, in both the exact
(≤ 10 channels) branch and the sampling (> 10 channels) branch, the latter
under the source's invariant that each Monte Carlo draw is a permutation of
the channel list and at least one draw is made. -/
theorem compute_shapley_values_efficiency (baseline : ℚ)
    (channel_effects : List (String × ℚ)) (perms : List (List ℕ))
    (hperm : channel_effects.length > 10 →
      perms ≠ [] ∧ ∀ p ∈ perms, p.Perm (List.range channel_effects.length)) :
    ((compute_shapley_values baseline channel_effects perms).map Prod.snd).sum =
      (channel_effects.map Prod.snd).sum := by
  rw [compute_shapley_values]
  by_cases h0 : channel_effects.length = 0
  · have : channel_effects = [] := List.length_eq_zero.mp h0
    simp [this]
  · simp only [h0, if_false]
    by_cases h10 : channel_effects.length > 10
    · obtain ⟨hne, hp⟩ := hperm h10
      have hp' : ∀ p ∈ perms,
          p.Perm (List.range (channel_effects.map Prod.snd).length) := by
        simpa using hp
      have hlensamp : (shapleySampling baseline
          (channel_effects.map Prod.snd) perms).length =
          (channel_effects.map Prod.fst).length := by
        simp [shapleySampling]
      simp only [h10, if_true]
      rw [List.map_snd_zip _ _ (le_of_eq hlensamp)]
      exact shapleySampling_sum baseline (channel_effects.map Prod.snd) perms
        hne hp'
    · have hlenex : (shapleyExact baseline
          (channel_effects.map Prod.snd)).length =
          (channel_effects.map Prod.fst).length := by
        simp [shapleyExact]
      simp only [h10, if_false]
      rw [List.map_snd_zip _ _ (le_of_eq hlenex)]
      rw [shapleyExact_eq]

theorem compute_shapley_values_efficiency_witness :
    ((([("A", (3 : ℚ)), ("B", 5)]).length > 10 →
      ([] : List (List ℕ)) ≠ [] ∧
        ∀ p ∈ ([] : List (List ℕ)),
          p.Perm (List.range ([("A", (3 : ℚ)), ("B", 5)]).length)) ∧ True) ∧
    ((compute_shapley_values 7 [("A", 3), ("B", 5)] []).map Prod.snd).sum =
      (([("A", (3 : ℚ)), ("B", 5)]).map Prod.snd).sum :=
  ⟨⟨fun h => absurd h (by decide), trivial⟩,
    compute_shapley_values_efficiency 7 [("A", 3), ("B", 5)] []
      (fun h => absurd h (by decide))⟩

/-- C9 counterexample: an empty `channel_effects` map is not rejected:
`compute_shapley_values` silently returns the empty dict — a trivially
successful result — instead of failing fast with an explicit error. -/
theorem compute_shapley_values_empty_silent :
    compute_shapley_values 5 [] [] = [] := by
  rfl

/-- C9 (amended): for an empty channel-effects map, `compute_shapley_values`
returns the empty map for every baseline and every permutation stream; no
error is raised and no validation is performed. -/
theorem compute_shapley_values_empty_returns_empty
    (baseline : ℚ) (perms : List (List ℕ)) :
    compute_shapley_values baseline [] perms = [] := by
  rfl

/-! ## Optimization engine: `optimize_budget_marginal_roi`
    (`dashboard/core/optimization.py`, lines 38-142)

    The scipy `minimize(..., method='SLSQP', ...)` call is an external
    collaborator; it is abstracted as a function `solver` mapping the
    initial guess `x0` to the returned iterate `result.x` (the objective,
    gradient, bounds and equality constraint built from the inputs all live
    inside this abstracted call).  Everything the Python function computes
    around that call — default bounds, the initial guess, the `max(0, ·)`
    clamp, and the final renormalization — is embedded directly.  The
    function returns a plain allocation dict: the source contains no check
    of `total_budget`, no feasibility check, no inspection of
    `result.success`, and no raised error. -/

def defaultMinPct : ℚ := 5 / 100

def defaultMaxPct : ℚ := 80 / 100

/-- `constraints.get(ch, (default_min, default_max))`. -/
def channelBounds (constraints : List (String × (ℚ × ℚ))) (ch : String) : ℚ × ℚ :=
  (constraints.lookup ch).getD (defaultMinPct, defaultMaxPct)

/-- `min_bounds`: `min_pct * total_budget` per channel. -/
def minBounds (total_budget : ℚ) (channels : List String)
    (constraints : List (String × (ℚ × ℚ))) : List ℚ :=
  channels.map fun ch => (channelBounds constraints ch).1 * total_budget

/-- `max_bounds`: `max_pct * total_budget` per channel. -/
def maxBounds (total_budget : ℚ) (channels : List String)
    (constraints : List (String × (ℚ × ℚ))) : List ℚ :=
  channels.map fun ch => (channelBounds constraints ch).2 * total_budget

/-- The initial guess: current-spend proportions rescaled to the budget
(or an equal split), clipped into the bounds (`np.clip`: lower bound first,
then upper), then renormalized by its own sum. -/
def initialGuess (total_budget : ℚ) (channels : List String)
    (current_spend : List (String × ℚ))
    (constraints : List (String × (ℚ × ℚ))) : List ℚ :=
  let n := channels.length
  let total_current := (current_spend.map Prod.snd).sum
  let x0raw :=
    if 0 < total_current then
      channels.map fun ch =>
        ((current_spend.lookup ch).getD (total_budget / n)) /
          total_current * total_budget
    else channels.map fun _ => total_budget / n
  let x0clip := List.zipWith (fun v mm => min mm.2 (max mm.1 v)) x0raw
    ((minBounds total_budget channels constraints).zip
      (maxBounds total_budget channels constraints))
  x0clip.map fun v => v / x0clip.sum * total_budget

/-- `optimize_budget_marginal_roi`: run the (abstracted) SLSQP solver from
the initial guess, clamp each component with `max(0, ·)`, and, when the
clamped total is positive, renormalize so the allocation sums to the
budget.  The result is returned unconditionally as a plain dict. -/
def optimize_budget_marginal_roi (solver : List ℚ → List ℚ)
    (total_budget : ℚ) (channels : List String)
    (elasticities : List (String × ℚ)) (current_spend : List (String × ℚ))
    (constraints : List (String × (ℚ × ℚ))) : List (String × ℚ) :=
  let xs := solver (initialGuess total_budget channels current_spend constraints)
  let optimal_spend := xs.map fun v => max 0 v
  let total_allocated := optimal_spend.sum
  let final :=
    if 0 < total_allocated then
      optimal_spend.map fun v => v / total_allocated * total_budget
    else optimal_spend
  channels.zip final

lemma sum_map_div_mul (l : List ℚ) (T B : ℚ) :
    (l.map fun v => v / T * B).sum = l.sum / T * B := by
  induction l with
  | nil => simp
  | cons a t ih =>
    simp only [List.map_cons, List.sum_cons, ih]
    ring

lemma sum_map_max_ge (l : List ℚ) : l.sum ≤ (l.map fun v => max 0 v).sum := by
  induction l with
  | nil => simp
  | cons a t ih =>
    simp only [List.map_cons, List.sum_cons]
    exact add_le_add (le_max_right 0 a) ih

/-- C1 counterexample: with `total_budget = 0` (an input the claim says must
be reported as an optimization failure) `optimize_budget_marginal_roi`
silently returns an ordinary allocation dict.  Its return type carries no
failure signal at all: the source never checks `total_budget`, the bound
sums, or the solver's success flag. -/
theorem optimize_budget_no_failure_report :
    optimize_budget_marginal_roi (fun _ => [0, 0]) 0 ["A", "B"]
      [("A", 1/5), ("B", 1/10)] [("A", 600), ("B", 400)] [] =
      [("A", 0), ("B", 0)] := by
  simp [optimize_budget_marginal_roi]

/-- C1 (amended): `optimize_budget_marginal_roi` performs no failure
detection and no reporting: for every input — including `total_budget ≤ 0`
and infeasible bound sets — it returns a plain allocation covering exactly
the requested channels (the clamped, renormalized solver iterate), with no
error raised, no success flag consulted and no diagnostic attached. -/
theorem optimize_budget_always_returns_allocation (solver : List ℚ → List ℚ)
    (total_budget : ℚ) (channels : List String)
    (elasticities : List (String × ℚ)) (current_spend : List (String × ℚ))
    (constraints : List (String × (ℚ × ℚ)))
    (hlen : (solver (initialGuess total_budget channels current_spend
      constraints)).length = channels.length) :
    (optimize_budget_marginal_roi solver total_budget channels elasticities
      current_spend constraints).map Prod.fst = channels := by
  rw [optimize_budget_marginal_roi]
  apply List.map_fst_zip
  split
  · simpa using le_of_eq hlen.symm
  · simpa using le_of_eq hlen.symm

theorem optimize_budget_always_returns_allocation_witness :
    (((fun _ => [(0 : ℚ), 0]) (initialGuess (-7) ["A", "B"]
        [("A", 600), ("B", 400)] [])).length = (["A", "B"]).length) ∧
    (optimize_budget_marginal_roi (fun _ => [0, 0]) (-7) ["A", "B"]
      [("A", 1/5), ("B", 1/10)] [("A", 600), ("B", 400)] []).map Prod.fst =
      ["A", "B"] :=
  ⟨rfl, optimize_budget_always_returns_allocation (fun _ => [0, 0]) (-7)
    ["A", "B"] [("A", 1/5), ("B", 1/10)] [("A", 600), ("B", 400)] [] rfl⟩

/-- C3: when `total_budget > 0` and the solver iterate satisfies the
budget-equality constraint, the returned spends sum to `total_budget`
exactly (the claim's 1e-6 relative tolerance is met with room to spare):
the `max(0, ·)` clamp can only increase the total, so it stays positive and
the final renormalization rescales the sum to exactly the budget. -/
theorem optimize_budget_conservation (solver : List ℚ → List ℚ)
    (total_budget : ℚ) (channels : List String)
    (elasticities : List (String × ℚ)) (current_spend : List (String × ℚ))
    (constraints : List (String × (ℚ × ℚ)))
    (hB : 0 < total_budget)
    (hlen : (solver (initialGuess total_budget channels current_spend
      constraints)).length = channels.length)
    (hsum : (solver (initialGuess total_budget channels current_spend
      constraints)).sum = total_budget) :
    ((optimize_budget_marginal_roi solver total_budget channels elasticities
      current_spend constraints).map Prod.snd).sum = total_budget := by
  rw [optimize_budget_marginal_roi]
  set xs := solver (initialGuess total_budget channels current_spend
    constraints) with hxs
  have hT : 0 < (xs.map fun v => max 0 v).sum :=
    lt_of_lt_of_le (hsum ▸ hB) (sum_map_max_ge xs)
  simp only [hT, if_true]
  rw [List.map_snd_zip]
  · rw [sum_map_div_mul, div_self (ne_of_gt hT), one_mul]
  · simpa using le_of_eq (by simpa using hlen)

theorem optimize_budget_conservation_witness :
    ((0 : ℚ) < 1000 ∧
      ((fun _ => [(600 : ℚ), 400]) (initialGuess 1000 ["A", "B"]
        [("A", 600), ("B", 400)] [])).length = (["A", "B"]).length ∧
      ((fun _ => [(600 : ℚ), 400]) (initialGuess 1000 ["A", "B"]
        [("A", 600), ("B", 400)] [])).sum = 1000) ∧
    ((optimize_budget_marginal_roi (fun _ => [600, 400]) 1000 ["A", "B"]
      [("A", 1/5), ("B", 1/10)] [("A", 600), ("B", 400)] []).map
        Prod.snd).sum = 1000 :=
  ⟨⟨by norm_num, rfl, by norm_num⟩,
    optimize_budget_conservation (fun _ => [600, 400]) 1000 ["A", "B"]
      [("A", 1/5), ("B", 1/10)] [("A", 600), ("B", 400)] []
      (by norm_num) rfl (by norm_num)⟩

/-- C10: for `total_budget > 0`, every spend in the returned allocation is
non-negative: each solver component is clamped with `max(0, ·)`, and the
renormalization multiplies by the non-negative factor
`total_budget / total_allocated`. -/
theorem optimize_budget_nonneg (solver : List ℚ → List ℚ)
    (total_budget : ℚ) (channels : List String)
    (elasticities : List (String × ℚ)) (current_spend : List (String × ℚ))
    (constraints : List (String × (ℚ × ℚ)))
    (hB : 0 < total_budget) :
    ∀ p ∈ optimize_budget_marginal_roi solver total_budget channels
      elasticities current_spend constraints, 0 ≤ p.2 := by
  intro p hp
  rw [optimize_budget_marginal_roi] at hp
  have h2 := (List.of_mem_zip hp).2
  split at h2
  · next hT =>
    obtain ⟨w, hw, heq⟩ := List.mem_map.mp h2
    obtain ⟨u, _, hequ⟩ := List.mem_map.mp hw
    rw [← heq, ← hequ]
    exact mul_nonneg (div_nonneg (le_max_left 0 u) hT.le) hB.le
  · obtain ⟨u, _, heq⟩ := List.mem_map.mp h2
    rw [← heq]
    exact le_max_left 0 u

theorem optimize_budget_nonneg_witness :
    (0 : ℚ) < 1000 ∧
    ∀ p ∈ optimize_budget_marginal_roi (fun _ => [-50, 400]) 1000 ["A", "B"]
      [("A", 1/5), ("B", 1/10)] [("A", 600), ("B", 400)] [], 0 ≤ p.2 :=
  ⟨by norm_num,
    optimize_budget_nonneg (fun _ => [-50, 400]) 1000 ["A", "B"]
      [("A", 1/5), ("B", 1/10)] [("A", 600), ("B", 400)] [] (by norm_num)⟩

/-! ## Attribution engine: `compute_channel_contributions_loglog`
    (`dashboard/core/attribution.py`, lines 9-56)

    The posterior coefficient array `trace_posterior['beta']` of shape
    `(chains, draws, channels)` is modelled as a function of the three
    indices; numpy's row-major `reshape(-1, n_channels)` followed by the
    column slice `[:, i]` becomes an index computation over the flat sample
    index.  `np.mean`, `np.std` (population, `ddof = 0`) and
    `np.percentile` (linear interpolation on the sorted sample) are
    modelled over `ℝ`. -/

noncomputable def npMean (xs : List ℝ) : ℝ := xs.sum / (xs.length : ℝ)

/-- `np.std`: square root of the mean squared deviation from the mean. -/
noncomputable def npStd (xs : List ℝ) : ℝ :=
  Real.sqrt (npMean (xs.map fun v => (v - npMean xs) ^ 2))

/-- `np.percentile(xs, q)` with the default linear interpolation: position
`h = q/100 * (len - 1)` on the sorted data, interpolating between the
neighbouring order statistics. -/
noncomputable def npPercentile (xs : List ℝ) (q : ℝ) : ℝ :=
  let s := xs.mergeSort fun a b => decide (a ≤ b)
  let h : ℝ := q / 100 * ((xs.length : ℝ) - 1)
  let lo : ℕ := (⌊h⌋).toNat
  let x_lo := s.getD lo 0
  let x_hi := s.getD (min (lo + 1) (xs.length - 1)) 0
  x_lo + (h - (lo : ℝ)) * (x_hi - x_lo)

/-- The per-channel statistics record returned for each channel. -/
structure ContributionStats where
  elasticity_mean : ℝ
  elasticity_std : ℝ
  elasticity_ci_lower : ℝ
  elasticity_ci_upper : ℝ
  contribution_mean : ℝ
  contribution_std : ℝ

/-- Column `i` of `betas.reshape(-1, n_channels)`: flat sample `s` maps to
the original `(chain, draw) = (s / n_draws, s % n_draws)` entry. -/
noncomputable def reshapeColumn (n_chains n_draws : ℕ)
    (beta : ℕ → ℕ → ℕ → ℝ) (i : ℕ) : List ℝ :=
  (List.range (n_chains * n_draws)).map fun s => beta (s / n_draws) (s % n_draws) i

/-- `compute_channel_contributions_loglog` for a 3-dimensional coefficient
array: per channel, slice the flattened sample, then report mean, std,
3rd/97th percentiles, and the contribution sample
`beta * mean(log spend column) * y_mean`. -/
noncomputable def compute_channel_contributions_loglog
    (n_chains n_draws : ℕ) (beta : ℕ → ℕ → ℕ → ℝ)
    (X_media_log : ℕ → ℕ → ℝ) (n_periods : ℕ) (y_mean : ℝ)
    (channel_names : List String) : List (String × ContributionStats) :=
  channel_names.enum.map fun ic =>
    let beta_samples := reshapeColumn n_chains n_draws beta ic.1
    let mean_log_spend :=
      npMean ((List.range n_periods).map fun t => X_media_log t ic.1)
    let contribution_samples :=
      beta_samples.map fun b => b * mean_log_spend * y_mean
    (ic.2,
      { elasticity_mean := npMean beta_samples
        elasticity_std := npStd beta_samples
        elasticity_ci_lower := npPercentile beta_samples 3
        elasticity_ci_upper := npPercentile beta_samples 97
        contribution_mean := npMean contribution_samples
        contribution_std := npStd contribution_samples })

/-- Modelled from the spec: the pooled sample of channel `i` — the
coefficient draws of every simulation run and every draw within each run,
gathered into one flat sample. -/
noncomputable def pooledSample (n_chains n_draws : ℕ)
    (beta : ℕ → ℕ → ℕ → ℝ) (i : ℕ) : List ℝ :=
  ((List.range n_chains).map fun a =>
    (List.range n_draws).map fun b => beta a b i).flatten

/-- Modelled from the spec: for each channel, flatten the coefficient array
across all runs and draws into one pooled sample; report its mean, standard
deviation, and the 3rd/97th percentiles as the credible interval;
contribution statistics come from the sample
`coefficient * mean(log_spend_column) * mean(outcome)`. -/
noncomputable def spec_channel_contributions
    (n_chains n_draws : ℕ) (beta : ℕ → ℕ → ℕ → ℝ)
    (X_media_log : ℕ → ℕ → ℝ) (n_periods : ℕ) (y_mean : ℝ)
    (channel_names : List String) : List (String × ContributionStats) :=
  channel_names.enum.map fun ic =>
    let pooled := pooledSample n_chains n_draws beta ic.1
    let mean_log_spend :=
      npMean ((List.range n_periods).map fun t => X_media_log t ic.1)
    let contribution := pooled.map fun b => b * mean_log_spend * y_mean
    (ic.2,
      { elasticity_mean := npMean pooled
        elasticity_std := npStd pooled
        elasticity_ci_lower := npPercentile pooled 3
        elasticity_ci_upper := npPercentile pooled 97
        contribution_mean := npMean contribution
        contribution_std := npStd contribution })

/-- Row-major reshape-then-slice equals the spec's per-channel pooling. -/
lemma reshapeColumn_eq_pooledSample (n_chains n_draws : ℕ)
    (beta : ℕ → ℕ → ℕ → ℝ) (i : ℕ) :
    reshapeColumn n_chains n_draws beta i =
      pooledSample n_chains n_draws beta i := by
  rw [reshapeColumn, pooledSample]
  induction n_chains with
  | zero => simp
  | succ m ih =>
    rw [Nat.succ_mul, List.range_add, List.map_append,
      List.range_succ, List.map_append, List.flatten_append, ← ih]
    congr 1
    rw [List.map_map]
    simp only [List.map_cons, List.map_nil, List.flatten_cons, List.flatten_nil,
      List.append_nil]
    apply List.map_congr_left
    intro b hb
    have hb' : b < n_draws := List.mem_range.mp hb
    have hd : 0 < n_draws := Nat.pos_of_ne_zero (by omega)
    have hdiv : (m * n_draws + b) / n_draws = m := by
      rw [mul_comm m n_draws, Nat.mul_add_div hd, Nat.div_eq_of_lt hb',
        Nat.add_zero]
    have hmod : (m * n_draws + b) % n_draws = b := by
      rw [mul_comm m n_draws, Nat.mul_add_mod, Nat.mod_eq_of_lt hb']
    simp [Function.comp, hdiv, hmod]

/-- C7: `compute_channel_contributions_loglog` computes exactly the
spec-described statistics: per channel it pools the coefficient draws
across all runs and draws, reports the pooled sample's mean and standard
deviation, takes the credible interval as the 3rd and 97th percentiles of
the pooled sample (a percentile interval, not a normal approximation), and
derives contribution mean/std from the sample
`coefficient * mean(log_spend_column) * mean(outcome)`. -/
theorem compute_channel_contributions_matches_spec
    (n_chains n_draws : ℕ) (beta : ℕ → ℕ → ℕ → ℝ)
    (X_media_log : ℕ → ℕ → ℝ) (n_periods : ℕ) (y_mean : ℝ)
    (channel_names : List String) :
    compute_channel_contributions_loglog n_chains n_draws beta X_media_log
      n_periods y_mean channel_names =
    spec_channel_contributions n_chains n_draws beta X_media_log n_periods
      y_mean channel_names := by
  rw [compute_channel_contributions_loglog, spec_channel_contributions]
  apply List.map_congr_left
  intro ic _
  rw [reshapeColumn_eq_pooledSample n_chains n_draws beta ic.1]

end MMM
